import Mathlib

/-!
# Verification of the `matrix_math` Gauss--Jordan inversion engine

Shallow embedding of the matrix engine from `matrix_math.hpp` (the
tolerance-based variant).  The floating scalar kind (`double`) is modelled
as the rationals `ℚ`, with the fixed tolerance constant `1e-11` modelled
exactly; matrices of static dimensions `Height × Width` are modelled as
`Matrix (Fin Height) (Fin Width) ℚ`.  Exceptions (the degenerate-matrix
signal) are modelled by `Option`/flagged results.
-/

namespace matrix_math

/-- The fudge factor for floating point types (`equality_tolerance`,
source value `0.00000000001 = 1e-11`). -/
def equality_tolerance : ℚ := 1 / 100000000000

/-- A `Height × Width` matrix of the floating scalar kind. -/
abbrev Mat (H W : ℕ) : Type := Matrix (Fin H) (Fin W) ℚ

/-- `matrix::swap_rows(a, b)`: exchange rows `a` and `b`. -/
def swap_rows {H W : ℕ} (M : Mat H W) (a b : Fin H) : Mat H W :=
  fun i => if i = a then M b else if i = b then M a else M i

/-- `row::operator*=`: multiply every element of row `r` by the constant
`k` (elementwise `element *= k`), leaving the other rows unchanged. -/
def scale_row {H W : ℕ} (M : Mat H W) (r : Fin H) (k : ℚ) : Mat H W :=
  Matrix.updateRow M r fun j => M r j * k

/-- One iteration of the elimination loop of `row_reduce`
(`if (s != r && storage[s][r] != T(0)) storage[s] += storage[r] * -storage[s][r]`). -/
def eliminateStep {H W : ℕ} (r : Fin H) (cr : Fin W) (M : Mat H W) (s : Fin H) : Mat H W :=
  if s ≠ r ∧ M s cr ≠ 0 then Matrix.updateRow M s (fun j => M s j + M r j * -(M s cr)) else M

/-- The elimination loop of `row_reduce`: for each row `s ≠ r` whose
element in column `cr` is nonzero, subtract `row r * storage[s][cr]`. -/
def eliminate {H W : ℕ} (M : Mat H W) (r : Fin H) (cr : Fin W) : Mat H W :=
  (List.finRange H).foldl (eliminateStep r cr) M

/-- Structural worker for `findSwap`; `fuel` bounds the remaining loop
iterations (`findSwap` supplies `H - s`, which is exact, so the `fuel = 0`
branch coincides with the loop exit `s = Height`). -/
def findSwapGo {H E : ℕ} (M : Mat H (H + E)) : ℕ → ℕ → Option (Fin H)
  | 0, _ => none
  | fuel + 1, s =>
    if h : s < H then
      if equality_tolerance < |M ⟨s, h⟩ (Fin.castAdd E ⟨s, h⟩)| then some ⟨s, h⟩
      else findSwapGo M fuel (s + 1)
    else none

/-- The pivot-search `while` loop of `row_reduce`: starting at row index
`s`, advance while `s < Height` and `|storage[s][s]| ≤ equality_tolerance`;
return the first row whose own diagonal element is non-zero-equivalent,
or `none` when `s` reaches `Height`. -/
def findSwap {H E : ℕ} (M : Mat H (H + E)) (s : ℕ) : Option (Fin H) :=
  findSwapGo M (H - s) s

/-- The pivot-acquisition step of `row_reduce` at pivot index `r`:
if `|storage[r][r]| ≤ equality_tolerance`, search rows `r+1, ...` with
`findSwap`; `none` models throwing `matrix_is_degenerate_error`, otherwise
the found row is swapped with row `r`. -/
def pivotStep {H E : ℕ} (M : Mat H (H + E)) (r : Fin H) : Option (Mat H (H + E)) :=
  if |M r (Fin.castAdd E r)| ≤ equality_tolerance then
    match findSwap M (r.val + 1) with
    | none => none
    | some s => some (swap_rows M r s)
  else some M

/-- The normalization step of `row_reduce`: if `storage[r][r] != 1`,
multiply row `r` by the reciprocal `1 / storage[r][r]`. -/
def normalizeStep {H E : ℕ} (M : Mat H (H + E)) (r : Fin H) : Mat H (H + E) :=
  if M r (Fin.castAdd E r) ≠ 1 then scale_row M r (1 / M r (Fin.castAdd E r)) else M

/-- One full iteration of the `row_reduce` loop body at pivot index `r`:
pivot acquisition (possibly signalling degeneracy), normalization, then
elimination of column `r` from all other rows. -/
def reduceStep {H E : ℕ} (M : Mat H (H + E)) (r : Fin H) : Option (Mat H (H + E)) :=
  match pivotStep M r with
  | none => none
  | some M1 => some (eliminate (normalizeStep M1 r) r (Fin.castAdd E r))

/-- The state of the matrix just before the `row_reduce` loop processes
pivot index `r` (i.e. after the iterations for indices `0, ..., r-1`);
`none` records that the degenerate signal was raised at an earlier index. -/
def stateAt {H E : ℕ} (M : Mat H (H + E)) : ℕ → Option (Mat H (H + E))
  | 0 => some M
  | r + 1 =>
    match stateAt M r with
    | none => none
    | some Mr => if h : r < H then reduceStep Mr ⟨r, h⟩ else some Mr

/-- `matrix::row_reduce()`: iterate the loop body for `r = 0, ..., Height-1`;
the result is `none` exactly when `matrix_is_degenerate_error` is thrown. -/
def row_reduce {H E : ℕ} (M : Mat H (H + E)) : Option (Mat H (H + E)) :=
  stateAt M H

/-- `matrix::get_right_slice()`: for an (augmented) matrix of width
`K + K`, the new matrix holding columns `K, ..., 2K-1`
(`right_slice[r][c] = storage[r][c + Width/2]`, with `Width/2 = K`). -/
def get_right_slice {H K : ℕ} (M : Mat H (K + K)) : Mat H K :=
  fun r c => M r (c.addNat K)

/-- `operator==` on matrices: `false` on a Height/Width mismatch, else
`false` as soon as some cell pair has `|lhs - rhs| > equality_tolerance`
or `rhs - lhs > equality_tolerance`, and `true` otherwise. -/
def matEq {H W H2 W2 : ℕ} (lhs : Mat H W) (rhs : Mat H2 W2) : Bool :=
  if hH : H = H2 then
    if hW : W = W2 then
      decide (∀ r : Fin H, ∀ c : Fin W,
        |lhs r c - rhs (Fin.cast hH r) (Fin.cast hW c)| ≤ equality_tolerance ∧
        rhs (Fin.cast hH r) (Fin.cast hW c) - lhs r c ≤ equality_tolerance)
    else false
  else false

/-- `matrix::operator*` (matrix multiplication): each cell is
`std::inner_product` of the corresponding row of `lhs` with the column
iterator of `rhs`, accumulated left to right from `0`.  The source only
compiles when the left operand is square (`Height == Width`), so the left
operand is `N × N` here. -/
def mmul {N W2 : ℕ} (lhs : Mat N N) (rhs : Mat N W2) : Mat N W2 :=
  fun r c => (List.finRange N).foldl (fun acc k => acc + lhs r k * rhs k c) 0

/-- `matrix::get_identity_matrix()`: zero matrix with `1` written on the
diagonal. -/
def get_identity_matrix (N : ℕ) : Mat N N :=
  fun i j => if i = j then 1 else 0

/-- `horizontal_concat(lhs, rhs)`: columns `[0, W1)` come from `lhs`,
columns `[W1, W1+W2)` from `rhs`, row-aligned. -/
def horizontal_concat {H W1 W2 : ℕ} (lhs : Mat H W1) (rhs : Mat H W2) : Mat H (W1 + W2) :=
  fun r c =>
    if h : c.val < W1 then lhs r ⟨c.val, h⟩
    else rhs r ⟨c.val - W1, by have := c.isLt; omega⟩

/-- `matrix::invert()` as a value-level function: row-reduce the augmented
matrix `[self | identity]` and return its right slice; `none` models the
propagated `matrix_is_degenerate_error`. -/
def invert {N : ℕ} (A : Mat N N) : Option (Mat N N) :=
  match row_reduce (horizontal_concat A (get_identity_matrix N)) with
  | none => none
  | some M => some (get_right_slice M)

/-- Receiver-state semantics of `matrix::invert()`: the Boolean records
whether `matrix_is_degenerate_error` escaped the call, and the matrix is
the value of `*this` when the call ends.  In the source, `row_reduce` runs
on the local `augmented_matrix`; the only write to `*this` is the final
assignment `*this = augmented_matrix.get_right_slice()`, which is not
reached when `row_reduce` throws, so on failure `*this` still holds its
original value. -/
def invert_run {N : ℕ} (A : Mat N N) : Bool × Mat N N :=
  match row_reduce (horizontal_concat A (get_identity_matrix N)) with
  | none => (true, A)
  | some M => (false, get_right_slice M)

/-- `matrix::get_inverse()`: copy the receiver into `mtx`, call
`mtx.invert()` (exceptions propagate), return `mtx`. -/
def get_inverse {N : ℕ} (A : Mat N N) : Option (Mat N N) :=
  invert A

/-- Receiver-state semantics of `matrix::get_inverse()`: the first
component is the returned inverse (`none` when the degenerate signal
propagates out), the second is the value of the receiver `*this` when the
call ends.  The source calls `invert()` on the local copy `mtx`, never on
`*this`, so the receiver keeps its value on both paths. -/
def get_inverse_run {N : ℕ} (A : Mat N N) : Option (Mat N N) × Mat N N :=
  match invert_run A with
  | (true, _) => (none, A)
  | (false, m) => (some m, A)

/-- `true` when the divisor used by the normalization step at pivot index
`r` (the post-pivot-acquisition diagonal element) is nonzero, or when the
run never reaches that step. -/
def soundAtB {H E : ℕ} (M : Mat H (H + E)) (r : Fin H) : Bool :=
  ((stateAt M r.val).bind (fun Mr => pivotStep Mr r)).all
    (fun M1 => decide (M1 r (Fin.castAdd E r) ≠ 0))

/-- Left half of an augmented `N × (N+N)` matrix. -/
def leftHalf {N : ℕ} (M : Mat N (N + N)) : Mat N N :=
  fun i j => M i (Fin.castAdd N j)

/-! ### Basic lemmas about the embedded operations -/

lemma opt_eq_some {α : Type} {o : Option α} {x : α} (h1 : o.isSome = true)
    (h2 : o.getD x = x) : o = some x := by
  cases o with
  | none => simp at h1
  | some y => simp at h2; rw [h2]

lemma eliminateStep_apply {H W : ℕ} (r : Fin H) (cr : Fin W) (M : Mat H W) (s i : Fin H)
    (j : Fin W) :
    eliminateStep r cr M s i j =
      if i = s then (if s ≠ r ∧ M s cr ≠ 0 then M s j + M r j * -(M s cr) else M s j)
      else M i j := by
  unfold eliminateStep
  by_cases hg : s ≠ r ∧ M s cr ≠ 0 <;> by_cases his : i = s <;>
    simp [Matrix.updateRow_apply, hg, his]

lemma eliminateStep_row_ne {H W : ℕ} (r : Fin H) (cr : Fin W) (M : Mat H W) (s i : Fin H)
    (hi : i ≠ s) : ∀ j, eliminateStep r cr M s i j = M i j := by
  intro j
  rw [eliminateStep_apply, if_neg hi]

lemma eliminateStep_row_r {H W : ℕ} (r : Fin H) (cr : Fin W) (M : Mat H W) (s : Fin H) :
    ∀ j, eliminateStep r cr M s r j = M r j := by
  intro j
  rw [eliminateStep_apply]
  by_cases hrs : r = s
  · subst hrs
    simp
  · simp [hrs]

lemma foldl_eliminateStep {H W : ℕ} (r : Fin H) (cr : Fin W) :
    ∀ (l : List (Fin H)), l.Nodup → ∀ (M : Mat H W) (i : Fin H) (j : Fin W),
      (l.foldl (eliminateStep r cr) M) i j =
        if i ∈ l ∧ i ≠ r then M i j + M r j * -(M i cr) else M i j := by
  intro l
  induction l with
  | nil => intro _ M i j; simp
  | cons s t ih =>
    intro hnd M i j
    obtain ⟨hst, hndt⟩ := List.nodup_cons.mp hnd
    rw [List.foldl_cons, ih hndt]
    by_cases hir : i = r
    · rw [if_neg (fun hc => hc.2 hir), if_neg (fun hc => hc.2 hir), hir]
      exact eliminateStep_row_r r cr M s j
    · by_cases hit : i ∈ t
      · have his : i ≠ s := fun h => hst (h ▸ hit)
        rw [if_pos ⟨hit, hir⟩, if_pos ⟨List.mem_cons_of_mem s hit, hir⟩]
        simp only [eliminateStep_row_ne r cr M s i his, eliminateStep_row_r r cr M s]
      · by_cases his : i = s
        · subst his
          rw [if_neg (fun hc => hit hc.1), if_pos ⟨List.mem_cons_self i t, hir⟩]
          rw [eliminateStep_apply, if_pos rfl]
          by_cases hz : M i cr ≠ 0
          · rw [if_pos ⟨hir, hz⟩]
          · push_neg at hz
            rw [if_neg (fun hc => hc.2 hz), hz]
            ring
        · have hns : i ∉ s :: t := fun hmem => (List.mem_cons.mp hmem).elim his hit
          rw [if_neg (fun hc => hit hc.1), if_neg (fun hc => hns hc.1)]
          exact eliminateStep_row_ne r cr M s i his j

/-- Pointwise description of the elimination loop: row `r` is unchanged and
every other row `i` becomes `row i + row r * -(M i cr)` (a no-op exactly
when `M i cr = 0`, matching the loop's guard). -/
lemma eliminate_apply {H W : ℕ} (M : Mat H W) (r : Fin H) (cr : Fin W) (i : Fin H) (j : Fin W) :
    eliminate M r cr i j = if i = r then M i j else M i j + M r j * -(M i cr) := by
  unfold eliminate
  rw [foldl_eliminateStep r cr (List.finRange H) (List.nodup_finRange H)]
  by_cases hir : i = r
  · simp [hir]
  · simp [hir, List.mem_finRange]

/-- Unfolding equation for `findSwap`, matching the `while` loop body. -/
lemma findSwap_unfold {H E : ℕ} (M : Mat H (H + E)) (s : ℕ) :
    findSwap M s =
      if h : s < H then
        if equality_tolerance < |M ⟨s, h⟩ (Fin.castAdd E ⟨s, h⟩)| then some ⟨s, h⟩
        else findSwap M (s + 1)
      else none := by
  unfold findSwap
  by_cases h : s < H
  · have hfuel : H - s = (H - (s + 1)) + 1 := by omega
    rw [hfuel]
    simp only [findSwapGo, h, dif_pos]
  · have hfuel : H - s = 0 := by omega
    rw [hfuel]
    simp only [findSwapGo, h, dif_neg, not_false_iff]

/-- The pivot search returns `none` exactly when every row from index `t`
on has a zero-equivalent diagonal element. -/
lemma findSwap_none_iff {H E : ℕ} (M : Mat H (H + E)) :
    ∀ (n t : ℕ), H - t ≤ n →
      (findSwap M t = none ↔
        ∀ s : Fin H, t ≤ s.val → |M s (Fin.castAdd E s)| ≤ equality_tolerance) := by
  intro n
  induction n with
  | zero =>
    intro t ht
    have hH : ¬ t < H := by omega
    rw [findSwap_unfold, dif_neg hH]
    constructor
    · intro _ s hs
      exact absurd s.isLt (by omega)
    · intro _
      rfl
  | succ n ih =>
    intro t ht
    rw [findSwap_unfold]
    by_cases hH : t < H
    · rw [dif_pos hH]
      by_cases hcond : equality_tolerance < |M ⟨t, hH⟩ (Fin.castAdd E ⟨t, hH⟩)|
      · rw [if_pos hcond]
        constructor
        · intro hc
          exact absurd hc (by simp)
        · intro hall
          exact absurd hcond (not_lt.mpr (hall ⟨t, hH⟩ (le_refl t)))
      · rw [if_neg hcond, ih (t + 1) (by omega)]
        constructor
        · intro hall s hs
          by_cases hst : t + 1 ≤ s.val
          · exact hall s hst
          · have hseq : s = ⟨t, hH⟩ := by
              apply Fin.ext
              show s.val = t
              omega
            rw [hseq]
            exact not_lt.mp hcond
        · intro hall s hs
          exact hall s (by omega)
    · rw [dif_neg hH]
      constructor
      · intro _ s hs
        exact absurd s.isLt (by omega)
      · intro _
        rfl

/-- If the pivot search succeeds, the returned row is at or after the
start index and its diagonal element is non-zero-equivalent. -/
lemma findSwap_some_spec {H E : ℕ} (M : Mat H (H + E)) :
    ∀ (n t : ℕ), H - t ≤ n → ∀ s0 : Fin H, findSwap M t = some s0 →
      t ≤ s0.val ∧ equality_tolerance < |M s0 (Fin.castAdd E s0)| := by
  intro n
  induction n with
  | zero =>
    intro t ht s0 hfound
    have hH : ¬ t < H := by omega
    rw [findSwap_unfold, dif_neg hH] at hfound
    exact absurd hfound (by simp)
  | succ n ih =>
    intro t ht s0 hfound
    rw [findSwap_unfold] at hfound
    by_cases hH : t < H
    · rw [dif_pos hH] at hfound
      by_cases hcond : equality_tolerance < |M ⟨t, hH⟩ (Fin.castAdd E ⟨t, hH⟩)|
      · rw [if_pos hcond] at hfound
        have hs0 : s0 = ⟨t, hH⟩ := by
          cases hfound
          rfl
        rw [hs0]
        exact ⟨le_refl t, hcond⟩
      · rw [if_neg hcond] at hfound
        obtain ⟨h1, h2⟩ := ih (t + 1) (by omega) s0 hfound
        exact ⟨by omega, h2⟩
    · rw [dif_neg hH] at hfound
      exact absurd hfound (by simp)

/-- The pivot search returns the first row at or after the start index
whose diagonal element is non-zero-equivalent. -/
lemma findSwap_first {H E : ℕ} (M : Mat H (H + E)) :
    ∀ (n t : ℕ), H - t ≤ n → ∀ s0 : Fin H, t ≤ s0.val →
      equality_tolerance < |M s0 (Fin.castAdd E s0)| →
      (∀ s : Fin H, t ≤ s.val → s.val < s0.val →
        |M s (Fin.castAdd E s)| ≤ equality_tolerance) →
      findSwap M t = some s0 := by
  intro n
  induction n with
  | zero =>
    intro t ht s0 hts0 _ _
    exact absurd s0.isLt (by omega)
  | succ n ih =>
    intro t ht s0 hts0 hbig hsmall
    have hH : t < H := by
      have := s0.isLt
      omega
    rw [findSwap_unfold, dif_pos hH]
    by_cases hteq : t = s0.val
    · have hseq : (⟨t, hH⟩ : Fin H) = s0 := Fin.ext hteq
      rw [if_pos (by rw [hseq]; exact hbig)]
      rw [hseq]
    · have htlt : t < s0.val := by omega
      have hsm := hsmall ⟨t, hH⟩ (le_refl t) htlt
      rw [if_neg (not_lt.mpr hsm)]
      exact ih (t + 1) (by omega) s0 (by omega) hbig (fun s h1 h2 => hsmall s (by omega) h2)

/-- `pivotStep` signals degeneracy exactly when the diagonal element at
the pivot index and the diagonal elements of all later rows are all
zero-equivalent. -/
lemma pivotStep_none_iff {H E : ℕ} (M : Mat H (H + E)) (r : Fin H) :
    pivotStep M r = none ↔
      (|M r (Fin.castAdd E r)| ≤ equality_tolerance ∧
        ∀ s : Fin H, r < s → |M s (Fin.castAdd E s)| ≤ equality_tolerance) := by
  unfold pivotStep
  by_cases hr : |M r (Fin.castAdd E r)| ≤ equality_tolerance
  · rw [if_pos hr]
    have hiff := findSwap_none_iff M (H - (r.val + 1)) (r.val + 1) (le_refl _)
    constructor
    · intro hnone
      refine ⟨hr, ?_⟩
      cases hfs : findSwap M (r.val + 1) with
      | none =>
        intro s hs
        exact (hiff.mp hfs) s hs
      | some s1 =>
        rw [hfs] at hnone
        exact absurd hnone (by simp)
    · intro ⟨_, hall⟩
      have hnone : findSwap M (r.val + 1) = none :=
        hiff.mpr (fun s hs => hall s (by omega))
      rw [hnone]
  · rw [if_neg hr]
    constructor
    · intro hc
      exact absurd hc (by simp)
    · intro ⟨h1, _⟩
      exact absurd h1 hr

/-- When the pivot is zero-equivalent and a later row has a
non-zero-equivalent diagonal element, `pivotStep` swaps with the first
such row and does not signal. -/
lemma pivotStep_swap {H E : ℕ} (M : Mat H (H + E)) (r s0 : Fin H)
    (hr : |M r (Fin.castAdd E r)| ≤ equality_tolerance) (hlt : r < s0)
    (hbig : equality_tolerance < |M s0 (Fin.castAdd E s0)|)
    (hfirst : ∀ s : Fin H, r < s → s < s0 → |M s (Fin.castAdd E s)| ≤ equality_tolerance) :
    pivotStep M r = some (swap_rows M r s0) := by
  unfold pivotStep
  rw [if_pos hr]
  have hfound : findSwap M (r.val + 1) = some s0 := by
    refine findSwap_first M (H - (r.val + 1)) (r.val + 1) (le_refl _) s0 (by omega) hbig ?_
    intro s h1 h2
    exact hfirst s (by omega) h2
  rw [hfound]

lemma stateAt_succ_none {H E : ℕ} (M : Mat H (H + E)) (r : ℕ) (h : stateAt M r = none) :
    stateAt M (r + 1) = none := by
  unfold stateAt
  rw [h]

lemma stateAt_succ_some {H E : ℕ} (M : Mat H (H + E)) (r : ℕ) (Mr : Mat H (H + E))
    (h : stateAt M r = some Mr) (hr : r < H) :
    stateAt M (r + 1) = reduceStep Mr ⟨r, hr⟩ := by
  conv_lhs => unfold stateAt
  rw [h]
  exact dif_pos hr

lemma stateAt_succ_some_ge {H E : ℕ} (M : Mat H (H + E)) (r : ℕ) (Mr : Mat H (H + E))
    (h : stateAt M r = some Mr) (hr : ¬ r < H) :
    stateAt M (r + 1) = some Mr := by
  conv_lhs => unfold stateAt
  rw [h]
  exact dif_neg hr

lemma stateAt_none_mono {H E : ℕ} (M : Mat H (H + E)) (k : ℕ) (h : stateAt M k = none) :
    ∀ k2, k ≤ k2 → stateAt M k2 = none := by
  intro k2
  induction k2 with
  | zero =>
    intro hk
    have : k = 0 := by omega
    rw [← this]
    exact h
  | succ n ih =>
    intro hk
    by_cases hkn : k ≤ n
    · exact stateAt_succ_none M n (ih hkn)
    · have : k = n + 1 := by omega
      rw [← this]
      exact h

lemma reduceStep_none_iff {H E : ℕ} (M : Mat H (H + E)) (r : Fin H) :
    reduceStep M r = none ↔ pivotStep M r = none := by
  unfold reduceStep
  cases h : pivotStep M r with
  | none => simp
  | some M1 => simp

/-- The whole reduction raises the degenerate signal exactly when some
intermediate state fails its pivot step. -/
lemma row_reduce_none_iff {H E : ℕ} (M : Mat H (H + E)) :
    row_reduce M = none ↔
      ∃ (r : Fin H) (Mr : Mat H (H + E)), stateAt M r.val = some Mr ∧ pivotStep Mr r = none := by
  constructor
  · have hgen : ∀ k, stateAt M k = none →
        ∃ (r : Fin H) (Mr : Mat H (H + E)), stateAt M r.val = some Mr ∧ pivotStep Mr r = none := by
      intro k
      induction k with
      | zero =>
        intro h
        exact absurd h (by unfold stateAt; simp)
      | succ n ih =>
        intro h
        cases hn : stateAt M n with
        | none => exact ih hn
        | some Mn =>
          by_cases hnH : n < H
          · rw [stateAt_succ_some M n Mn hn hnH] at h
            exact ⟨⟨n, hnH⟩, Mn, hn, (reduceStep_none_iff Mn ⟨n, hnH⟩).mp h⟩
          · rw [stateAt_succ_some_ge M n Mn hn hnH] at h
            exact absurd h (by simp)
    exact hgen H
  · intro ⟨r, Mr, hstate, hpivot⟩
    have h1 : stateAt M (r.val + 1) = none := by
      rw [stateAt_succ_some M r.val Mr hstate r.isLt]
      cases hr : pivotStep Mr ⟨r.val, r.isLt⟩ with
      | none =>
        unfold reduceStep
        rw [hr]
      | some M1 =>
        rw [Fin.eta] at hr
        rw [hr] at hpivot
        exact absurd hpivot (by simp)
    exact stateAt_none_mono M (r.val + 1) h1 H (by omega)

lemma foldl_add_eq {α : Type} (f : α → ℚ) :
    ∀ (l : List α) (a : ℚ), l.foldl (fun acc k => acc + f k) a = a + (l.map f).sum := by
  intro l
  induction l with
  | nil => intro a; simp
  | cons x t ih =>
    intro a
    rw [List.foldl_cons, ih (a + f x), List.map_cons, List.sum_cons]
    ring

/-- The `inner_product` accumulation agrees with the mathematical matrix
product. -/
lemma mmul_eq_mul {N W2 : ℕ} (lhs : Mat N N) (rhs : Mat N W2) :
    mmul lhs rhs = lhs * rhs := by
  funext r c
  unfold mmul
  rw [foldl_add_eq, Matrix.mul_apply, Fin.sum_univ_def]
  rw [zero_add]

/-- Same-dimension equality: the second runtime check
(`rhs - lhs > tolerance`) is subsumed by the first, so `operator==` holds
exactly when every cell pair differs by at most the tolerance. -/
lemma matEq_true_iff {H W : ℕ} (lhs rhs : Mat H W) :
    matEq lhs rhs = true ↔ ∀ r c, |lhs r c - rhs r c| ≤ equality_tolerance := by
  unfold matEq
  rw [dif_pos rfl, dif_pos rfl, decide_eq_true_iff]
  constructor
  · intro h r c
    have h1 := (h r c).1
    simpa using h1
  · intro h r c
    have h1 := h r c
    refine ⟨by simpa using h1, ?_⟩
    have h2 : rhs r c - lhs r c ≤ |lhs r c - rhs r c| := by
      rw [abs_sub_comm]
      exact le_abs_self _
    simpa using le_trans h2 h1

lemma matEq_false_of_dim {H W H2 W2 : ℕ} (lhs : Mat H W) (rhs : Mat H2 W2)
    (h : ¬(H = H2 ∧ W = W2)) : matEq lhs rhs = false := by
  unfold matEq
  by_cases hH : H = H2
  · by_cases hW : W = W2
    · exact absurd ⟨hH, hW⟩ h
    · rw [dif_pos hH, dif_neg hW]
  · rw [dif_neg hH]

lemma matEq_refl {H W : ℕ} (M : Mat H W) : matEq M M = true := by
  rw [matEq_true_iff]
  intro r c
  rw [sub_self, abs_zero]
  unfold equality_tolerance
  positivity

lemma matEq_of_eq {H W : ℕ} {A B : Mat H W} (h : A = B) : matEq A B = true := by
  rw [h]
  exact matEq_refl B

lemma matEq_symm {H W : ℕ} (A B : Mat H W) : matEq A B = matEq B A := by
  by_cases h : matEq A B = true
  · have h2 : matEq B A = true := by
      rw [matEq_true_iff] at h ⊢
      intro r c
      rw [abs_sub_comm]
      exact h r c
    rw [h, h2]
  · have h2 : ¬ matEq B A = true := by
      intro hc
      apply h
      rw [matEq_true_iff] at hc ⊢
      intro r c
      rw [abs_sub_comm]
      exact hc r c
    simp only [Bool.not_eq_true] at h h2
    rw [h, h2]

lemma get_identity_eq_one {N : ℕ} : get_identity_matrix N = (1 : Mat N N) := by
  funext i j
  unfold get_identity_matrix
  rw [Matrix.one_apply]

lemma horizontal_concat_left {H W1 W2 : ℕ} (A : Mat H W1) (B : Mat H W2) (r : Fin H)
    (c : Fin W1) : horizontal_concat A B r (Fin.castAdd W2 c) = A r c := by
  unfold horizontal_concat
  have hc : ((Fin.castAdd W2 c) : Fin (W1 + W2)).val < W1 := c.isLt
  rw [dif_pos hc]
  exact congrArg (A r) (Fin.ext rfl)

/-- Concatenation followed by right-slicing recovers the right operand. -/
lemma get_right_slice_concat {H N : ℕ} (A B : Mat H N) :
    get_right_slice (horizontal_concat A B) = B := by
  funext r c
  unfold get_right_slice horizontal_concat
  have h1 : ¬ ((c.addNat N : Fin (N + N)).val < N) := by
    show ¬ (c.val + N < N)
    omega
  rw [dif_neg h1]
  have h2 : ((⟨(c.addNat N : Fin (N + N)).val - N, by have := c.isLt; omega⟩ : Fin N)) = c := by
    apply Fin.ext
    show c.val + N - N = c.val
    omega
  rw [h2]

/-! ### Row operations as left multiplication, and the two reduction invariants -/

/-- Generic "add a multiple of row `r` to every other row" operation, the
pointwise shape of `eliminate` restricted to a block of columns. -/
def addRowsOp {N K : ℕ} (X : Mat N K) (r : Fin N) (c : Fin N → ℚ) : Mat N K :=
  fun i j => if i = r then X i j else X i j + X r j * c i

/-- Column restriction of an augmented matrix along an index map. -/
def halfCols {N : ℕ} (M : Mat N (N + N)) (g : Fin N → Fin (N + N)) : Mat N N :=
  fun i j => M i (g j)

lemma leftHalf_eq_halfCols {N : ℕ} (M : Mat N (N + N)) :
    leftHalf M = halfCols M (Fin.castAdd N) := rfl

lemma right_slice_eq_halfCols {N : ℕ} (M : Mat N (N + N)) :
    get_right_slice M = halfCols M (fun c => c.addNat N) := rfl

lemma halfCols_swap {N : ℕ} (M : Mat N (N + N)) (g : Fin N → Fin (N + N)) (a b : Fin N) :
    halfCols (swap_rows M a b) g = swap_rows (halfCols M g) a b := by
  funext i j
  unfold halfCols swap_rows
  by_cases h1 : i = a
  · simp only [if_pos h1]
  · by_cases h2 : i = b
    · simp only [if_neg h1, if_pos h2]
    · simp only [if_neg h1, if_neg h2]

lemma halfCols_scale {N : ℕ} (M : Mat N (N + N)) (g : Fin N → Fin (N + N)) (r : Fin N)
    (k : ℚ) : halfCols (scale_row M r k) g = scale_row (halfCols M g) r k := by
  funext i j
  unfold halfCols scale_row
  rw [Matrix.updateRow_apply, Matrix.updateRow_apply]

lemma halfCols_eliminate {N : ℕ} (M : Mat N (N + N)) (g : Fin N → Fin (N + N)) (r : Fin N)
    (cr : Fin (N + N)) :
    halfCols (eliminate M r cr) g = addRowsOp (halfCols M g) r (fun i => -(M i cr)) := by
  funext i j
  unfold halfCols addRowsOp
  rw [eliminate_apply]

lemma swap_rows_mul {N : ℕ} (X A : Mat N N) (a b : Fin N) :
    swap_rows (X * A) a b = (swap_rows X a b) * A := by
  funext i j
  unfold swap_rows
  by_cases h1 : i = a
  · simp only [if_pos h1, Matrix.mul_apply]
  · by_cases h2 : i = b
    · simp only [if_neg h1, if_pos h2, Matrix.mul_apply]
    · simp only [if_neg h1, if_neg h2, Matrix.mul_apply]

lemma scale_row_mul {N : ℕ} (X A : Mat N N) (r : Fin N) (k : ℚ) :
    scale_row (X * A) r k = (scale_row X r k) * A := by
  funext i j
  unfold scale_row
  by_cases h : i = r
  · simp only [h, Matrix.updateRow_self, Matrix.mul_apply, Finset.sum_mul]
    exact Finset.sum_congr rfl (fun t _ => by ring)
  · simp only [Matrix.updateRow_ne h, Matrix.mul_apply]

lemma addRowsOp_mul {N : ℕ} (X A : Mat N N) (r : Fin N) (c : Fin N → ℚ) :
    addRowsOp (X * A) r c = (addRowsOp X r c) * A := by
  funext i j
  unfold addRowsOp
  by_cases h : i = r
  · simp only [if_pos h, Matrix.mul_apply]
  · simp only [if_neg h, Matrix.mul_apply, Finset.sum_mul]
    rw [← Finset.sum_add_distrib]
    exact Finset.sum_congr rfl (fun t _ => by ring)

/-- The linear invariant of the augmented reduction: the left half always
equals the right half times the original matrix. -/
def LinInv {N : ℕ} (A : Mat N N) (M : Mat N (N + N)) : Prop :=
  leftHalf M = get_right_slice M * A

lemma LinInv_swap {N : ℕ} {A : Mat N N} {M : Mat N (N + N)} {a b : Fin N}
    (h : LinInv A M) : LinInv A (swap_rows M a b) := by
  unfold LinInv at h ⊢
  rw [leftHalf_eq_halfCols, right_slice_eq_halfCols, halfCols_swap, halfCols_swap,
    ← leftHalf_eq_halfCols, ← right_slice_eq_halfCols, h, swap_rows_mul]

lemma LinInv_scale {N : ℕ} {A : Mat N N} {M : Mat N (N + N)} {r : Fin N} {k : ℚ}
    (h : LinInv A M) : LinInv A (scale_row M r k) := by
  unfold LinInv at h ⊢
  rw [leftHalf_eq_halfCols, right_slice_eq_halfCols, halfCols_scale, halfCols_scale,
    ← leftHalf_eq_halfCols, ← right_slice_eq_halfCols, h, scale_row_mul]

lemma LinInv_eliminate {N : ℕ} {A : Mat N N} {M : Mat N (N + N)} {r : Fin N}
    {cr : Fin (N + N)} (h : LinInv A M) : LinInv A (eliminate M r cr) := by
  unfold LinInv at h ⊢
  rw [leftHalf_eq_halfCols, right_slice_eq_halfCols, halfCols_eliminate, halfCols_eliminate,
    ← leftHalf_eq_halfCols, ← right_slice_eq_halfCols, h, addRowsOp_mul]

lemma LinInv_normalize {N : ℕ} {A : Mat N N} {M : Mat N (N + N)} {r : Fin N}
    (h : LinInv A M) : LinInv A (normalizeStep M r) := by
  unfold normalizeStep
  by_cases hc : M r (Fin.castAdd N r) ≠ 1
  · rw [if_pos hc]
    exact LinInv_scale h
  · rw [if_neg hc]
    exact h

lemma LinInv_pivot {N : ℕ} {A : Mat N N} {M M1 : Mat N (N + N)} {r : Fin N}
    (h : pivotStep M r = some M1) (hinv : LinInv A M) : LinInv A M1 := by
  unfold pivotStep at h
  by_cases hc : |M r (Fin.castAdd N r)| ≤ equality_tolerance
  · rw [if_pos hc] at h
    cases hfs : findSwap M (r.val + 1) with
    | none =>
      rw [hfs] at h
      exact absurd h (by simp)
    | some s =>
      rw [hfs] at h
      have h2 : swap_rows M r s = M1 := by injection h
      rw [← h2]
      exact LinInv_swap hinv
  · rw [if_neg hc] at h
    have h2 : M = M1 := by injection h
    rw [← h2]
    exact hinv

lemma LinInv_reduceStep {N : ℕ} {A : Mat N N} {M M2 : Mat N (N + N)} {r : Fin N}
    (h : reduceStep M r = some M2) (hinv : LinInv A M) : LinInv A M2 := by
  unfold reduceStep at h
  cases hp : pivotStep M r with
  | none =>
    rw [hp] at h
    exact absurd h (by simp)
  | some M1 =>
    rw [hp] at h
    have h2 : eliminate (normalizeStep M1 r) r (Fin.castAdd N r) = M2 := by injection h
    rw [← h2]
    exact LinInv_eliminate (LinInv_normalize (LinInv_pivot hp hinv))

lemma leftHalf_concat {N : ℕ} (A B : Mat N N) : leftHalf (horizontal_concat A B) = A := by
  funext i j
  exact horizontal_concat_left A B i j

lemma stateAt_LinInv {N : ℕ} (A : Mat N N) (M0 : Mat N (N + N)) (h0 : LinInv A M0) :
    ∀ (k : ℕ) (Mk : Mat N (N + N)), stateAt M0 k = some Mk → LinInv A Mk := by
  intro k
  induction k with
  | zero =>
    intro Mk h
    have h2 : M0 = Mk := by
      unfold stateAt at h
      injection h
    rw [← h2]
    exact h0
  | succ n ih =>
    intro Mk h
    cases hn : stateAt M0 n with
    | none =>
      rw [stateAt_succ_none M0 n hn] at h
      exact absurd h (by simp)
    | some Mn =>
      by_cases hnN : n < N
      · rw [stateAt_succ_some M0 n Mn hn hnN] at h
        exact LinInv_reduceStep h (ih Mn hn)
      · rw [stateAt_succ_some_ge M0 n Mn hn hnN] at h
        have h2 : Mn = Mk := by injection h
        rw [← h2]
        exact ih Mn hn

lemma soundAtB_spec {H E : ℕ} {M : Mat H (H + E)} {r : Fin H} {Mr M1 : Mat H (H + E)}
    (hs : soundAtB M r = true) (h1 : stateAt M r.val = some Mr)
    (h2 : pivotStep Mr r = some M1) : M1 r (Fin.castAdd E r) ≠ 0 := by
  unfold soundAtB at hs
  rw [h1, Option.some_bind, h2, Option.all_some] at hs
  exact of_decide_eq_true hs

lemma fin_ne_of_val_lt {N : ℕ} {a b : Fin N} (h : a.val < b.val) : ¬ b = a := by
  intro hh
  rw [hh] at h
  omega

/-- The prefix-identity invariant: the first `k` columns of the augmented
matrix already form the identity pattern. -/
def IdUpto {N : ℕ} (M : Mat N (N + N)) (k : ℕ) : Prop :=
  ∀ c : Fin N, c.val < k → ∀ i : Fin N, M i (Fin.castAdd N c) = if i = c then 1 else 0

lemma IdUpto_pivot {N : ℕ} {M M1 : Mat N (N + N)} {r : Fin N}
    (h : pivotStep M r = some M1) (hid : IdUpto M r.val) : IdUpto M1 r.val := by
  unfold pivotStep at h
  by_cases hc : |M r (Fin.castAdd N r)| ≤ equality_tolerance
  · rw [if_pos hc] at h
    cases hfs : findSwap M (r.val + 1) with
    | none =>
      rw [hfs] at h
      exact absurd h (by simp)
    | some s =>
      rw [hfs] at h
      have hs := (findSwap_some_spec M (N - (r.val + 1)) (r.val + 1) (le_refl _) s hfs).1
      have h2 : swap_rows M r s = M1 := by injection h
      rw [← h2]
      intro c hck i
      unfold swap_rows
      have hrc : ¬ r = c := fin_ne_of_val_lt hck
      have hsc : ¬ s = c := fin_ne_of_val_lt (by omega)
      by_cases hi1 : i = r
      · rw [if_pos hi1, hid c hck s, if_neg hsc, if_neg (hi1 ▸ hrc)]
      · by_cases hi2 : i = s
        · rw [if_neg hi1, if_pos hi2, hid c hck r, if_neg hrc, if_neg (hi2 ▸ hsc)]
        · rw [if_neg hi1, if_neg hi2]
          exact hid c hck i
  · rw [if_neg hc] at h
    have h2 : M = M1 := by injection h
    rw [← h2]
    exact hid

lemma IdUpto_normalize {N : ℕ} {M : Mat N (N + N)} {r : Fin N}
    (hid : IdUpto M r.val) : IdUpto (normalizeStep M r) r.val := by
  intro c hck i
  unfold normalizeStep
  have hrc : ¬ r = c := fin_ne_of_val_lt hck
  by_cases hc : M r (Fin.castAdd N r) ≠ 1
  · rw [if_pos hc]
    unfold scale_row
    rw [Matrix.updateRow_apply]
    by_cases h1 : i = r
    · rw [if_pos h1, hid c hck r, if_neg hrc, zero_mul, h1, if_neg hrc]
    · rw [if_neg h1]
      exact hid c hck i
  · rw [if_neg hc]
    exact hid c hck i

lemma normalizeStep_pivot_one {N : ℕ} {M : Mat N (N + N)} {r : Fin N}
    (hnz : M r (Fin.castAdd N r) ≠ 0) :
    normalizeStep M r r (Fin.castAdd N r) = 1 := by
  unfold normalizeStep
  by_cases hc : M r (Fin.castAdd N r) ≠ 1
  · rw [if_pos hc]
    unfold scale_row
    rw [Matrix.updateRow_self, mul_one_div, div_self hnz]
  · rw [if_neg hc]
    push_neg at hc
    exact hc

lemma IdUpto_eliminate {N : ℕ} {M : Mat N (N + N)} {r : Fin N}
    (hid : IdUpto M r.val) (hpiv : M r (Fin.castAdd N r) = 1) :
    IdUpto (eliminate M r (Fin.castAdd N r)) (r.val + 1) := by
  intro c hck i
  rw [eliminate_apply]
  by_cases hcr : c = r
  · by_cases h1 : i = r
    · rw [if_pos h1, h1, hcr, hpiv, if_pos rfl]
    · rw [if_neg h1, hcr, hpiv, if_neg (hcr ▸ h1)]
      ring
  · have hck2 : c.val < r.val := by
      have hne : ¬ c.val = r.val := fun hh => hcr (Fin.ext hh)
      omega
    have hrc : ¬ r = c := fin_ne_of_val_lt hck2
    have hrc0 : M r (Fin.castAdd N c) = 0 := by
      rw [hid c hck2 r, if_neg hrc]
    by_cases h1 : i = r
    · rw [if_pos h1, h1, hrc0, if_neg hrc]
    · rw [if_neg h1, hrc0, zero_mul, add_zero]
      exact hid c hck2 i

lemma stateAt_IdUpto {N : ℕ} (M0 : Mat N (N + N))
    (hsound : ∀ r : Fin N, soundAtB M0 r = true) :
    ∀ (k : ℕ) (Mk : Mat N (N + N)), stateAt M0 k = some Mk → IdUpto Mk (min k N) := by
  intro k
  induction k with
  | zero =>
    intro Mk _ c hck
    exact absurd hck (by simp)
  | succ n ih =>
    intro Mk h
    cases hn : stateAt M0 n with
    | none =>
      rw [stateAt_succ_none M0 n hn] at h
      exact absurd h (by simp)
    | some Mn =>
      by_cases hnN : n < N
      · rw [stateAt_succ_some M0 n Mn hn hnN] at h
        unfold reduceStep at h
        cases hp : pivotStep Mn ⟨n, hnN⟩ with
        | none =>
          rw [hp] at h
          exact absurd h (by simp)
        | some M1 =>
          rw [hp] at h
          have hMk : eliminate (normalizeStep M1 ⟨n, hnN⟩) ⟨n, hnN⟩
              (Fin.castAdd N ⟨n, hnN⟩) = Mk := by injection h
          have hnz : M1 ⟨n, hnN⟩ (Fin.castAdd N ⟨n, hnN⟩) ≠ 0 :=
            soundAtB_spec (hsound ⟨n, hnN⟩) hn hp
          have hid_n : IdUpto Mn n := by
            have h3 := ih Mn hn
            rwa [min_eq_left (le_of_lt hnN)] at h3
          have hid1 : IdUpto M1 n := IdUpto_pivot hp hid_n
          have hid2 : IdUpto (normalizeStep M1 ⟨n, hnN⟩) n := IdUpto_normalize hid1
          have hpiv1 : normalizeStep M1 ⟨n, hnN⟩ ⟨n, hnN⟩ (Fin.castAdd N ⟨n, hnN⟩) = 1 :=
            normalizeStep_pivot_one hnz
          have hid3 := IdUpto_eliminate hid2 hpiv1
          rw [← hMk]
          rwa [min_eq_left (by omega : n + 1 ≤ N)]
      · rw [stateAt_succ_some_ge M0 n Mn hn hnN] at h
        have h2 : Mn = Mk := by injection h
        have h3 := ih Mn hn
        rw [← h2]
        have hmin : min (n + 1) N = min n N := by omega
        rwa [hmin]

lemma row_reduce_eq_stateAt {H E : ℕ} (M : Mat H (H + E)) : row_reduce M = stateAt M H := rfl

/-- Correctness of inversion under the nonzero-divisor side condition:
when `invert` succeeds and every normalization divisor along the run is
nonzero, the right slice is a genuine two-sided inverse. -/
lemma invert_sound_correct {N : ℕ} (A B : Mat N N) (hinv : invert A = some B)
    (hsound : ∀ r : Fin N, soundAtB (horizontal_concat A (get_identity_matrix N)) r = true) :
    B * A = 1 ∧ A * B = 1 := by
  unfold invert at hinv
  cases hrr : row_reduce (horizontal_concat A (get_identity_matrix N)) with
  | none =>
    rw [hrr] at hinv
    exact absurd hinv (by simp)
  | some F =>
    rw [hrr] at hinv
    have hB : get_right_slice F = B := by injection hinv
    rw [row_reduce_eq_stateAt] at hrr
    have hlin : LinInv A F := by
      refine stateAt_LinInv A (horizontal_concat A (get_identity_matrix N)) ?_ N F hrr
      unfold LinInv
      rw [leftHalf_concat, get_right_slice_concat, get_identity_eq_one, Matrix.one_mul]
    have hid : IdUpto F N := by
      have h3 := stateAt_IdUpto (horizontal_concat A (get_identity_matrix N)) hsound N F hrr
      rwa [min_self] at h3
    have hleft : leftHalf F = 1 := by
      funext i j
      rw [Matrix.one_apply]
      exact hid j j.isLt i
    have h1 : B * A = 1 := by
      rw [← hB]
      unfold LinInv at hlin
      rw [← hlin, hleft]
    exact ⟨h1, Matrix.mul_eq_one_comm.mp h1⟩

/-- One reduction step leaves the augmented `[identity | identity]` matrix
unchanged. -/
lemma reduceStep_identity {N : ℕ} (r : Fin N) :
    reduceStep (horizontal_concat (get_identity_matrix N) (get_identity_matrix N)) r =
      some (horizontal_concat (get_identity_matrix N) (get_identity_matrix N)) := by
  have hdiag : ∀ (i c : Fin N),
      horizontal_concat (get_identity_matrix N) (get_identity_matrix N) i (Fin.castAdd N c) =
        if i = c then 1 else 0 := by
    intro i c
    rw [horizontal_concat_left]
    rfl
  unfold reduceStep
  have hpiv : pivotStep (horizontal_concat (get_identity_matrix N) (get_identity_matrix N)) r
      = some (horizontal_concat (get_identity_matrix N) (get_identity_matrix N)) := by
    unfold pivotStep
    rw [if_neg]
    rw [hdiag r r, if_pos rfl]
    unfold equality_tolerance
    intro hc
    rw [abs_one] at hc
    norm_num at hc
  rw [hpiv]
  show some (eliminate
      (normalizeStep (horizontal_concat (get_identity_matrix N) (get_identity_matrix N)) r) r
      (Fin.castAdd N r)) = _
  have hnorm : normalizeStep (horizontal_concat (get_identity_matrix N) (get_identity_matrix N)) r
      = horizontal_concat (get_identity_matrix N) (get_identity_matrix N) := by
    unfold normalizeStep
    rw [if_neg]
    rw [hdiag r r, if_pos rfl]
    intro hc
    exact hc rfl
  rw [hnorm]
  have helim : eliminate (horizontal_concat (get_identity_matrix N) (get_identity_matrix N)) r
      (Fin.castAdd N r) = horizontal_concat (get_identity_matrix N) (get_identity_matrix N) := by
    funext i j
    rw [eliminate_apply]
    by_cases h1 : i = r
    · rw [if_pos h1]
    · rw [if_neg h1, hdiag i r, if_neg h1]
      ring
  rw [helim]

lemma stateAt_identity {N : ℕ} : ∀ k : ℕ,
    stateAt (horizontal_concat (get_identity_matrix N) (get_identity_matrix N)) k =
      some (horizontal_concat (get_identity_matrix N) (get_identity_matrix N)) := by
  intro k
  induction k with
  | zero => rfl
  | succ n ih =>
    by_cases hnN : n < N
    · rw [stateAt_succ_some _ n _ ih hnN]
      exact reduceStep_identity ⟨n, hnN⟩
    · exact stateAt_succ_some_ge _ n _ ih hnN

lemma get_inverse_identity {N : ℕ} :
    get_inverse (get_identity_matrix N) = some (get_identity_matrix N) := by
  unfold get_inverse invert
  rw [row_reduce_eq_stateAt, stateAt_identity N]
  show some (get_right_slice
    (horizontal_concat (get_identity_matrix N) (get_identity_matrix N))) = _
  rw [get_right_slice_concat]

/-! ### Concrete matrices used by the claim instances -/

/-- The 2×2 swap (permutation) matrix `[[0,1],[1,0]]` from the spec's
degenerate scenario. -/
def swapMatrix : Mat 2 2 := !![0, 1; 1, 0]

/-- A 2×2 matrix `[[0,1],[0,5]]` whose pivot-acquisition swap brings an
exact zero into the pivot position. -/
def zeroPivotMatrix : Mat 2 2 := !![0, 1; 0, 5]

/-- The 1×1 matrix `[[5]]` from the spec's concrete scenarios. -/
def five : Mat 1 1 := !![5]

/-- The 1×1 matrix `[[1/5]]`, the inverse of `[[5]]`. -/
def fifth : Mat 1 1 := !![1/5]

/-- The 2×2 matrix `[[0,1],[1,2]]` (invertible through a row swap). -/
def swapDemo : Mat 2 2 := !![0, 1; 1, 2]

/-- A 1×1 matrix for dimension-mismatch checks. -/
def one11 : Mat 1 1 := !![3]

/-- A 2×2 matrix for dimension-mismatch checks. -/
def one22 : Mat 2 2 := !![1, 2; 3, 4]

/-! ### The claims -/

/-- C1 (counterexample): the claim quantifies over every invertible matrix,
but the swap matrix `[[0,1],[1,0]]` is invertible (it is its own inverse)
while `get_inverse` raises DegenerateMatrix on it, so no inverse matrix
satisfying the product equations is returned at all. -/
theorem C1_counterexample :
    ¬ (∀ A : Mat 2 2,
        (∃ B : Mat 2 2, mmul A B = get_identity_matrix 2 ∧
          mmul B A = get_identity_matrix 2) →
        ∃ C : Mat 2 2, get_inverse A = some C ∧
          matEq (mmul A C) (get_identity_matrix 2) = true ∧
          matEq (mmul C A) (get_identity_matrix 2) = true) := by
  intro hall
  obtain ⟨C, hC, _⟩ := hall swapMatrix
    ⟨swapMatrix, by with_unfolding_all decide, by with_unfolding_all decide⟩
  rw [show get_inverse swapMatrix = none from by with_unfolding_all decide] at hC
  exact absurd hC (by simp)

/-- C1 (amended): for every N×N matrix `A` whose `get_inverse()` call
succeeds and whose reduction divides only by nonzero pivots (which can
fail only when a pivot-acquisition row swap brings a zero into the pivot
position), `A * A.get_inverse()` and `A.get_inverse() * A` both equal
`identity(N)`, under the scalar kind's equality rule and even exactly. -/
theorem C1_inverse_product_identity {N : ℕ} (A B : Mat N N)
    (hinv : get_inverse A = some B)
    (hsound : ∀ r : Fin N, soundAtB (horizontal_concat A (get_identity_matrix N)) r = true) :
    matEq (mmul A B) (get_identity_matrix N) = true ∧
    matEq (mmul B A) (get_identity_matrix N) = true ∧
    mmul A B = get_identity_matrix N ∧ mmul B A = get_identity_matrix N := by
  obtain ⟨h1, h2⟩ := invert_sound_correct A B hinv hsound
  have hAB : mmul A B = get_identity_matrix N := by
    rw [mmul_eq_mul, get_identity_eq_one, h2]
  have hBA : mmul B A = get_identity_matrix N := by
    rw [mmul_eq_mul, get_identity_eq_one, h1]
  exact ⟨matEq_of_eq hAB, matEq_of_eq hBA, hAB, hBA⟩

/-- C1 (witness): the amended theorem applied to `[[5]]`, whose inverse is
`[[1/5]]`. -/
theorem C1_witness :
    matEq (mmul five fifth) (get_identity_matrix 1) = true ∧
    matEq (mmul fifth five) (get_identity_matrix 1) = true ∧
    mmul five fifth = get_identity_matrix 1 ∧ mmul fifth five = get_identity_matrix 1 :=
  C1_inverse_product_identity five fifth
    (opt_eq_some (by with_unfolding_all decide) (by with_unfolding_all decide))
    (by with_unfolding_all decide)

/-- C2: `row_reduce` raises DegenerateMatrix exactly when, at some pivot
index `r` (evaluated on the state the loop has reached), the element at
`(r,r)` is zero-equivalent and every candidate row `s > r` has a
zero-equivalent element at its own diagonal `(s,s)`; and when the pivot is
zero-equivalent but some candidate row has a non-zero-equivalent diagonal,
the first such row is swapped with row `r` and no signal is raised at that
index. -/
theorem C2_degenerate_iff {H E : ℕ} (M : Mat H (H + E)) :
    (row_reduce M = none ↔
      ∃ (r : Fin H) (Mr : Mat H (H + E)), stateAt M r.val = some Mr ∧
        |Mr r (Fin.castAdd E r)| ≤ equality_tolerance ∧
        ∀ s : Fin H, r < s → |Mr s (Fin.castAdd E s)| ≤ equality_tolerance) ∧
    (∀ (r s0 : Fin H) (Mr : Mat H (H + E)), stateAt M r.val = some Mr →
      |Mr r (Fin.castAdd E r)| ≤ equality_tolerance → r < s0 →
      equality_tolerance < |Mr s0 (Fin.castAdd E s0)| →
      (∀ s : Fin H, r < s → s < s0 → |Mr s (Fin.castAdd E s)| ≤ equality_tolerance) →
      pivotStep Mr r = some (swap_rows Mr r s0)) := by
  constructor
  · rw [row_reduce_none_iff]
    constructor
    · intro ⟨r, Mr, h1, h2⟩
      rw [pivotStep_none_iff] at h2
      exact ⟨r, Mr, h1, h2.1, h2.2⟩
    · intro ⟨r, Mr, h1, h2, h3⟩
      exact ⟨r, Mr, h1, (pivotStep_none_iff Mr r).mpr ⟨h2, h3⟩⟩
  · intro r s0 Mr h1 h2 h3 h4 h5
    exact pivotStep_swap Mr r s0 h2 h3 h4 h5

/-- C2 (witness): on `[[0,1],[1,2]]` the pivot at index 0 is zero, row 1
has a non-zero diagonal, and `pivotStep` swaps rows 0 and 1. -/
theorem C2_witness : pivotStep (E := 0) swapDemo 0 = some (swap_rows swapDemo 0 1) :=
  (C2_degenerate_iff (E := 0) swapDemo).2 0 1 swapDemo rfl
    (by with_unfolding_all decide) (by with_unfolding_all decide)
    (by with_unfolding_all decide) (by with_unfolding_all decide)

/-- C3: the swap matrix `[[0,1],[1,0]]` is its own inverse (hence
mathematically invertible), yet both `invert()` and `get_inverse()` raise
DegenerateMatrix on it, because the pivot search inspects candidate rows'
own diagonal elements. -/
theorem C3_swap_matrix_degenerate :
    mmul swapMatrix swapMatrix = get_identity_matrix 2 ∧
    invert swapMatrix = none ∧ get_inverse swapMatrix = none := by
  refine ⟨?_, ?_, ?_⟩ <;> with_unfolding_all decide

/-- C4 (counterexample): the claim says the receiver of `invert()` has
been mutated when the degenerate signal is raised; in fact on
`[[0,1],[1,0]]` the signal is raised and the receiver still holds exactly
its original value, because the reduction runs on the local augmented
matrix. -/
theorem C4_counterexample :
    ¬ (∀ A : Mat 2 2, (invert_run A).1 = true → (invert_run A).2 ≠ A) := by
  intro hall
  have h1 : (invert_run swapMatrix).1 = true := by with_unfolding_all decide
  have h2 : (invert_run swapMatrix).2 = swapMatrix := by with_unfolding_all decide
  exact hall swapMatrix h1 h2

/-- C4 (amended): when `row_reduce` signals degeneracy during `invert()`,
the receiver is left unchanged: the reduction mutates only the local
augmented matrix, and the receiver is assigned only on success. -/
theorem C4_receiver_unchanged_on_failure {N : ℕ} (A : Mat N N)
    (h : (invert_run A).1 = true) : (invert_run A).2 = A := by
  cases hrr : row_reduce (horizontal_concat A (get_identity_matrix N)) with
  | none =>
    have hr : invert_run A = (true, A) := by
      unfold invert_run
      rw [hrr]
    rw [hr]
  | some F =>
    have hr : invert_run A = (false, get_right_slice F) := by
      unfold invert_run
      rw [hrr]
    rw [hr] at h
    simp at h

/-- C4 (witness): the amended theorem applied to the degenerate input
`[[0,1],[1,0]]`. -/
theorem C4_witness : (invert_run swapMatrix).2 = swapMatrix :=
  C4_receiver_unchanged_on_failure swapMatrix (by with_unfolding_all decide)

/-- C5: `get_inverse()` never mutates its receiver: the receiver state
after the call equals the state before, both when inversion succeeds and
when DegenerateMatrix propagates, and the returned value is the pure
inverse. -/
theorem C5_get_inverse_preserves_receiver {N : ℕ} (A : Mat N N) :
    (get_inverse_run A).2 = A ∧ (get_inverse_run A).1 = get_inverse A := by
  unfold get_inverse_run invert_run get_inverse invert
  cases hrr : row_reduce (horizontal_concat A (get_identity_matrix N)) with
  | none => exact ⟨rfl, rfl⟩
  | some F => exact ⟨rfl, rfl⟩

/-- C6: for floating-kind matrices, `operator==` holds exactly when the
dimensions agree and every cell pair differs by at most the tolerance
`1e-11`; mismatched dimensions are never equal; the relation is reflexive
and symmetric. -/
theorem C6_equality_characterisation :
    (∀ (H W : ℕ) (lhs rhs : Mat H W),
      matEq lhs rhs = true ↔ ∀ r c, |lhs r c - rhs r c| ≤ equality_tolerance) ∧
    (∀ (H W H2 W2 : ℕ) (lhs : Mat H W) (rhs : Mat H2 W2),
      ¬(H = H2 ∧ W = W2) → matEq lhs rhs = false) ∧
    (∀ (H W : ℕ) (M : Mat H W), matEq M M = true) ∧
    (∀ (H W : ℕ) (A B : Mat H W), matEq A B = matEq B A) :=
  ⟨fun _ _ lhs rhs => matEq_true_iff lhs rhs,
   fun _ _ _ _ lhs rhs h => matEq_false_of_dim lhs rhs h,
   fun _ _ M => matEq_refl M,
   fun _ _ A B => matEq_symm A B⟩

/-- C6 (witness): a 1×1 and a 2×2 matrix are never equal. -/
theorem C6_witness : matEq one11 one22 = false :=
  C6_equality_characterisation.2.1 1 1 2 2 one11 one22 (by decide)

/-- C7: each cell of the product is the inner product of the corresponding
row of `lhs` and column of `rhs` (stated for the square left operands that
the source's `operator*` can actually instantiate; see the code-bug record
for non-square left operands). -/
theorem C7_mul_inner_product {N W2 : ℕ} (lhs : Mat N N) (rhs : Mat N W2) (r : Fin N)
    (c : Fin W2) : mmul lhs rhs r c = ∑ k : Fin N, lhs r k * rhs k c := by
  rw [mmul_eq_mul, Matrix.mul_apply]

/-- C8: for every size N, the identity matrix is its own inverse:
`get_inverse` succeeds on it and returns it, and the result equals the
identity under the scalar kind's equality rule. -/
theorem C8_identity_self_inverse (N : ℕ) :
    get_inverse (get_identity_matrix N) = some (get_identity_matrix N) ∧
    matEq (get_identity_matrix N) (get_identity_matrix N) = true :=
  ⟨get_inverse_identity, matEq_refl _⟩

/-- C9 (counterexample): on `[[0,1],[0,5]]` the reduction reaches pivot
index 0 without a signal, the pivot-acquisition swap succeeds, and the
element then used as the normalization divisor is exactly 0, i.e. not of
magnitude greater than the tolerance. -/
theorem C9_counterexample :
    ¬ (∀ (Mr M1 : Mat 2 2), stateAt (E := 0) zeroPivotMatrix 0 = some Mr →
        pivotStep (E := 0) Mr 0 = some M1 → M1 0 (Fin.castAdd 0 0) ≠ 1 →
        equality_tolerance < |M1 0 (Fin.castAdd 0 0)|) := by
  intro hall
  have h := hall zeroPivotMatrix (swap_rows zeroPivotMatrix 0 1) rfl
    (by with_unfolding_all decide) (by with_unfolding_all decide)
  revert h
  with_unfolding_all decide

/-- C9 (amended): the normalization divisor is guaranteed
non-zero-equivalent only when the pivot was accepted without a row swap
(`|(r,r)| > tolerance` already held); after a pivot-acquisition swap the
divisor is the swapped-in row's entry in column `r`, which can be zero. -/
theorem C9_no_swap_divisor_nonzero {H E : ℕ} (M : Mat H (H + E)) (r : Fin H)
    (h : ¬ |M r (Fin.castAdd E r)| ≤ equality_tolerance) :
    pivotStep M r = some M ∧
      (M r (Fin.castAdd E r) ≠ 1 → equality_tolerance < |M r (Fin.castAdd E r)|) := by
  constructor
  · unfold pivotStep
    rw [if_neg h]
  · intro _
    exact not_le.mp h

/-- C9 (witness): the amended theorem applied to `[[5]]`. -/
theorem C9_witness :
    pivotStep (E := 0) five 0 = some five ∧
      (five 0 (Fin.castAdd 0 0) ≠ 1 →
        equality_tolerance < |five 0 (Fin.castAdd 0 0)|) :=
  C9_no_swap_divisor_nonzero (H := 1) (E := 0) five 0 (by with_unfolding_all decide)

/-- C10: for every pair of N×N matrices, right-slicing their horizontal
concatenation recovers the right operand cellwise. -/
theorem C10_right_slice_round_trip {N : ℕ} (A B : Mat N N) :
    get_right_slice (horizontal_concat A B) = B :=
  get_right_slice_concat A B

end matrix_math
